import Mathlib

/-!
Verification of the aus_senate experiment harness against its design spec.

The harness lives in `src/run.py` (matrix sweep, engine invocation, output
parsing, accumulation) and `src/vis.py` (cross-run aggregation and
normalization).  Strings are modelled as `List Char`; Python's
`str.split(sep)` (leftmost, non-overlapping matches of a nonempty separator)
is modelled by `pySplit`.
-/

namespace AusSenate

/-- Python list-cons onto the first chunk of a split result: used by
`pySplitGo` to prepend the current character to the chunk under
construction. -/
def pyCons (c : Char) : List (List Char) → List (List Char)
  | [] => [[c]]
  | h :: t => (c :: h) :: t

/-- Fuel-indexed worker for Python `str.split` with separator `c0 :: sep`.
Scans left to right; on a separator match it emits the current chunk and
skips the separator (CPython's non-overlapping semantics). -/
def pySplitGo (c0 : Char) (sep : List Char) : Nat → List Char → List (List Char)
  | _, [] => [[]]
  | 0, c :: rest => [c :: rest]
  | fuel + 1, c :: rest =>
    if (c0 :: sep).isPrefixOf (c :: rest) then
      [] :: pySplitGo c0 sep fuel (List.drop sep.length rest)
    else
      pyCons c (pySplitGo c0 sep fuel rest)

/-- Python `s.split(sep)` for the nonempty separator `c0 :: sep`. -/
def pySplit (c0 : Char) (sep : List Char) (s : List Char) : List (List Char) :=
  pySplitGo c0 sep s.length s

/-- Python `split(...)[-1]`: a split result is never empty, so `[-1]` is the
last element. -/
def pyLast (l : List (List Char)) : List Char :=
  l.getLastD []

/-- Python `split(...)[0]`: a split result is never empty, so `[0]` is the
head. -/
def pyHead (l : List (List Char)) : List Char :=
  l.headD []

theorem pyCons_ne_nil (c : Char) (l : List (List Char)) : pyCons c l ≠ [] := by
  cases l <;> simp [pyCons]

theorem pyCons_append (c : Char) (xs ys : List (List Char)) (h : xs ≠ []) :
    pyCons c (xs ++ ys) = pyCons c xs ++ ys := by
  cases xs with
  | nil => exact absurd rfl h
  | cons x xs => simp [pyCons]

theorem pySplitGo_ne_nil (c0 : Char) (sep : List Char) (fuel : Nat) (s : List Char) :
    pySplitGo c0 sep fuel s ≠ [] := by
  match fuel, s with
  | _, [] => simp [pySplitGo]
  | 0, c :: rest => simp [pySplitGo]
  | fuel + 1, c :: rest =>
    simp only [pySplitGo]
    split
    · simp
    · exact pyCons_ne_nil _ _

theorem pySplitGo_fuel (c0 : Char) (sep : List Char) :
    ∀ f1 f2 s, s.length ≤ f1 → s.length ≤ f2 →
      pySplitGo c0 sep f1 s = pySplitGo c0 sep f2 s := by
  intro f1
  induction f1 with
  | zero =>
    intro f2 s h1 _
    have hs : s = [] := List.eq_nil_of_length_eq_zero (Nat.le_zero.mp h1)
    subst hs
    simp [pySplitGo]
  | succ f1 ih =>
    intro f2 s h1 h2
    cases s with
    | nil => simp [pySplitGo]
    | cons c rest =>
      cases f2 with
      | zero =>
        exact absurd h2 (by simp)
      | succ f2 =>
        simp only [pySplitGo]
        split
        · have hd : (List.drop sep.length rest).length ≤ f1 := by
            simp only [List.length_drop]
            simp only [List.length_cons] at h1
            omega
          have hd2 : (List.drop sep.length rest).length ≤ f2 := by
            simp only [List.length_drop]
            simp only [List.length_cons] at h2
            omega
          rw [ih f2 _ hd hd2]
        · have hr : rest.length ≤ f1 := by
            simp only [List.length_cons] at h1; omega
          have hr2 : rest.length ≤ f2 := by
            simp only [List.length_cons] at h2; omega
          rw [ih f2 _ hr hr2]

theorem pySplit_eq_go (c0 : Char) (sep : List Char) (f : Nat) (s : List Char)
    (h : s.length ≤ f) : pySplit c0 sep s = pySplitGo c0 sep f s :=
  pySplitGo_fuel c0 sep s.length f s le_rfl h

theorem pySplit_ne_nil (c0 : Char) (sep : List Char) (s : List Char) :
    pySplit c0 sep s ≠ [] :=
  pySplitGo_ne_nil c0 sep s.length s

theorem pySplit_nil (c0 : Char) (sep : List Char) : pySplit c0 sep [] = [[]] :=
  rfl

theorem pySplit_cons_pos (c0 : Char) (sep : List Char) (c : Char) (rest : List Char)
    (h : (c0 :: sep).isPrefixOf (c :: rest)) :
    pySplit c0 sep (c :: rest) = [] :: pySplit c0 sep (List.drop sep.length rest) := by
  show pySplitGo c0 sep (rest.length + 1) (c :: rest) = _
  simp only [pySplitGo, if_pos h]
  rw [← pySplit_eq_go]
  simp only [List.length_drop]
  omega

theorem pySplit_cons_neg (c0 : Char) (sep : List Char) (c : Char) (rest : List Char)
    (h : ¬ (c0 :: sep).isPrefixOf (c :: rest)) :
    pySplit c0 sep (c :: rest) = pyCons c (pySplit c0 sep rest) := by
  show pySplitGo c0 sep (rest.length + 1) (c :: rest) = _
  simp only [pySplitGo, if_neg h]
  rw [← pySplit_eq_go]
  exact le_rfl

/-- If the separator never occurs in `s`, Python's split returns `[s]`. -/
theorem pySplit_sep_absent (c0 : Char) (sep : List Char) :
    ∀ s, ¬ (c0 :: sep) <:+: s → pySplit c0 sep s = [s] := by
  intro s
  induction s with
  | nil => intro _; rfl
  | cons c rest ih =>
    intro h
    rw [pySplit_cons_neg]
    · rw [ih (fun hc => h (List.infix_cons hc))]
      rfl
    · intro hp
      exact h (List.isPrefixOf_iff_prefix.mp hp).isInfix

/-- A separator has no nonempty proper border: no strict suffix of it is
also one of its prefixes.  Guarantees that Python's non-overlapping scan
can never consume a separator occurrence straddling a known occurrence. -/
def noBorder (sep : List Char) : Prop :=
  ∀ t ∈ sep.tails, t <+: sep → t = [] ∨ t = sep

theorem noBorder_single (c : Char) : noBorder [c] := by
  intro t ht _
  rw [List.mem_tails] at ht
  obtain ⟨s, hs⟩ := ht
  cases t with
  | nil => exact Or.inl rfl
  | cons x xs =>
    right
    cases s with
    | nil => simpa using hs
    | cons y ys =>
      have hlen := congrArg List.length hs
      simp [List.length_append] at hlen

/-- The spanning-occurrence case is impossible for a border-free separator:
if `c0 :: sep` starts at the head of `s1 ++ (c0 :: sep) ++ b` but is not a
prefix of `s1` (with `s1` nonempty), a nonempty proper border would arise. -/
theorem noBorder_no_span (c0 : Char) (sep : List Char) (hB : noBorder (c0 :: sep))
    (c : Char) (a' b : List Char)
    (hp : (c0 :: sep) <+: (c :: a') ++ (c0 :: sep) ++ b)
    (hp' : ¬ (c0 :: sep) <+: (c :: a')) : False := by
  set m : List Char := c0 :: sep with hm
  set s1 : List Char := c :: a' with hs1
  have hwhole : s1 <+: s1 ++ (m ++ b) := List.prefix_append s1 (m ++ b)
  have hp2 : m <+: s1 ++ (m ++ b) := by
    simpa [List.append_assoc] using hp
  by_cases hlen : m.length ≤ s1.length
  · exact hp' (List.prefix_of_prefix_length_le hp2 hwhole hlen)
  · have hs1m : s1 <+: m :=
      List.prefix_of_prefix_length_le hwhole hp2 (by omega)
    obtain ⟨r, hr⟩ := hs1m
    have hrs : r <:+ m := ⟨s1, hr⟩
    have hrp : r <+: m ++ b := by
      have : s1 ++ r <+: s1 ++ (m ++ b) := by rw [hr]; exact hp2
      exact (List.prefix_append_right_inj s1).mp this
    have hrlen : r.length < m.length := by
      have := congrArg List.length hr
      simp [List.length_append, hs1] at this
      omega
    have hrm : r <+: m :=
      List.prefix_of_prefix_length_le hrp (List.prefix_append m b) (Nat.le_of_lt hrlen)
    rcases hB r ((List.mem_tails r m).mpr hrs) hrm with h0 | hfull
    · subst h0
      have : s1 = m := by simpa using hr
      exact hp' (this ▸ List.prefix_refl s1)
    · subst hfull
      omega

/-- Python split distributes over an explicit separator occurrence, for a
border-free separator: `(a ++ sep ++ b).split(sep) = a.split(sep) ++
b.split(sep)`. -/
theorem pySplitGo_append (c0 : Char) (sep : List Char) (hB : noBorder (c0 :: sep)) :
    ∀ fuel a b, (a ++ (c0 :: sep) ++ b).length ≤ fuel →
      pySplitGo c0 sep fuel (a ++ (c0 :: sep) ++ b) =
        pySplit c0 sep a ++ pySplit c0 sep b := by
  intro fuel
  induction fuel with
  | zero =>
    intro a b h
    simp [List.length_append] at h
  | succ fuel ih =>
    intro a b h
    cases a with
    | nil =>
      have hpre : (c0 :: sep).isPrefixOf (c0 :: (sep ++ b)) :=
        List.isPrefixOf_iff_prefix.mpr (by simp)
      have hlb : b.length ≤ fuel := by
        simp [List.length_append] at h; omega
      calc pySplitGo c0 sep (fuel + 1) ([] ++ (c0 :: sep) ++ b)
          = pySplitGo c0 sep (fuel + 1) (c0 :: (sep ++ b)) := by
            simp
        _ = [] :: pySplitGo c0 sep fuel (List.drop sep.length (sep ++ b)) := by
            simp only [pySplitGo, if_pos hpre]
        _ = [] :: pySplitGo c0 sep fuel b := by rw [List.drop_left]
        _ = [] :: pySplit c0 sep b := by rw [← pySplit_eq_go c0 sep fuel b hlb]
        _ = pySplit c0 sep [] ++ pySplit c0 sep b := rfl
    | cons c a' =>
      have hshape : (c :: a') ++ (c0 :: sep) ++ b = c :: (a' ++ (c0 :: sep) ++ b) := by
        simp
      by_cases hp : (c0 :: sep).isPrefixOf (c :: (a' ++ (c0 :: sep) ++ b))
      · by_cases hp2 : (c0 :: sep).isPrefixOf (c :: a')
        · have hsl : sep.length ≤ a'.length := by
            have := (List.isPrefixOf_iff_prefix.mp hp2).length_le
            simp at this
            omega
          have hdrop : List.drop sep.length (a' ++ (c0 :: sep) ++ b) =
              List.drop sep.length a' ++ (c0 :: sep) ++ b := by
            rw [List.append_assoc, List.drop_append_of_le_length hsl, List.append_assoc]
          have hfl : (List.drop sep.length a' ++ (c0 :: sep) ++ b).length ≤ fuel := by
            simp only [List.length_append, List.length_drop, List.length_cons] at h ⊢
            omega
          calc pySplitGo c0 sep (fuel + 1) ((c :: a') ++ (c0 :: sep) ++ b)
              = pySplitGo c0 sep (fuel + 1) (c :: (a' ++ (c0 :: sep) ++ b)) := by
                rw [hshape]
            _ = [] :: pySplitGo c0 sep fuel (List.drop sep.length (a' ++ (c0 :: sep) ++ b)) := by
                simp only [pySplitGo, if_pos hp]
            _ = [] :: pySplitGo c0 sep fuel (List.drop sep.length a' ++ (c0 :: sep) ++ b) := by
                rw [hdrop]
            _ = [] :: (pySplit c0 sep (List.drop sep.length a') ++ pySplit c0 sep b) := by
                rw [ih _ _ hfl]
            _ = ([] :: pySplit c0 sep (List.drop sep.length a')) ++ pySplit c0 sep b := rfl
            _ = pySplit c0 sep (c :: a') ++ pySplit c0 sep b := by
                rw [pySplit_cons_pos c0 sep c a' hp2]
        · exact absurd (List.isPrefixOf_iff_prefix.mp hp)
            (fun hpp => noBorder_no_span c0 sep hB c a' b
              (by simpa [List.append_assoc] using hpp)
              (fun hq => hp2 (List.isPrefixOf_iff_prefix.mpr hq)))
      · have hp2 : ¬ (c0 :: sep).isPrefixOf (c :: a') := by
          intro hq
          apply hp
          rw [List.isPrefixOf_iff_prefix] at hq ⊢
          have : (c :: a') <+: c :: (a' ++ (c0 :: sep) ++ b) := by
            simp [List.append_assoc]
          exact hq.trans this
        have hfl : (a' ++ (c0 :: sep) ++ b).length ≤ fuel := by
          simp only [List.length_append, List.length_cons] at h ⊢
          omega
        calc pySplitGo c0 sep (fuel + 1) ((c :: a') ++ (c0 :: sep) ++ b)
            = pySplitGo c0 sep (fuel + 1) (c :: (a' ++ (c0 :: sep) ++ b)) := by
              rw [hshape]
          _ = pyCons c (pySplitGo c0 sep fuel (a' ++ (c0 :: sep) ++ b)) := by
              simp only [pySplitGo, if_neg hp]
          _ = pyCons c (pySplit c0 sep a' ++ pySplit c0 sep b) := by
              rw [ih _ _ hfl]
          _ = pyCons c (pySplit c0 sep a') ++ pySplit c0 sep b :=
              pyCons_append c _ _ (pySplit_ne_nil c0 sep a')
          _ = pySplit c0 sep (c :: a') ++ pySplit c0 sep b := by
              rw [pySplit_cons_neg c0 sep c a' hp2]

/-- `pySplit` distributes over an explicit occurrence of a border-free
separator. -/
theorem pySplit_append (c0 : Char) (sep : List Char) (hB : noBorder (c0 :: sep))
    (a b : List Char) :
    pySplit c0 sep (a ++ (c0 :: sep) ++ b) = pySplit c0 sep a ++ pySplit c0 sep b := by
  rw [pySplit]
  exact pySplitGo_append c0 sep hB _ a b le_rfl

theorem pyLast_ne_nil_irrel (l : List (List Char)) (d d' : List Char) (h : l ≠ []) :
    l.getLastD d = l.getLastD d' := by
  cases l with
  | nil => exact absurd rfl h
  | cons x xs => rw [List.getLastD_cons, List.getLastD_cons]

theorem pyLast_append (l1 l2 : List (List Char)) (h : l2 ≠ []) :
    pyLast (l1 ++ l2) = pyLast l2 := by
  induction l1 with
  | nil => rfl
  | cons x l1 ih =>
    show (x :: (l1 ++ l2)).getLastD [] = pyLast l2
    rw [List.getLastD_cons]
    calc (l1 ++ l2).getLastD x
        = (l1 ++ l2).getLastD [] := by
          apply pyLast_ne_nil_irrel
          intro hc
          exact h (List.append_eq_nil.mp hc).2
      _ = pyLast l2 := ih

theorem pyHead_append (l1 l2 : List (List Char)) (h : l1 ≠ []) :
    pyHead (l1 ++ l2) = pyHead l1 := by
  cases l1 with
  | nil => exact absurd rfl h
  | cons x xs => rfl

/-- A single character is an infix of `l` exactly when it is a member. -/
theorem singleton_infix_iff (c : Char) (l : List Char) : [c] <:+: l ↔ c ∈ l := by
  constructor
  · rintro ⟨s, t, hst⟩
    rw [← hst]
    simp
  · intro h
    obtain ⟨s, t, hst⟩ := List.append_of_mem h
    exact ⟨s, t, by simp [hst]⟩

/-! ## Output parser (src/run.py lines 61-67)

`elected_people = output.split("=== Elected ===\n")[-1]`
`per_person = elected_people.split("\n")`
`for person in per_person: if person:`
`  party = person.split('\x7b')[-1].split('\x7d')[0]; party_count[party] += 1`
-/

/-- The character `U+007B` (opening curly brace), as used by the party-code
extraction in `run.py` line 66. -/
def lbrace : Char := Char.ofNat 123

/-- The character `U+007D` (closing curly brace). -/
def rbrace : Char := Char.ofNat 125

/-- Tail of the section marker `"=== Elected ===\n"` after its first
character `'='`. -/
def markerTail : List Char := "== Elected ===\n".data

/-- The section marker `run.py` splits on: the literal `"=== Elected ===\n"`
(the marker line including its newline). -/
def marker : List Char := '=' :: markerTail

/-- `output.split("=== Elected ===\n")[-1]`: the elected-candidates
section. -/
def electedSection (output : List Char) : List Char :=
  pyLast (pySplit '=' markerTail output)

/-- The non-empty lines of the elected-candidates section (the loop body
runs once per truthy `person`). -/
def electedLines (output : List Char) : List (List Char) :=
  (pySplit '\n' [] (electedSection output)).filter (fun l => !l.isEmpty)

/-- `person.split('\x7b')[-1].split('\x7d')[0]`: the extracted party code of
one elected-candidate line. -/
def extractParty (person : List Char) : List Char :=
  pyHead (pySplit rbrace [] (pyLast (pySplit lbrace [] person)))

/-- The multiset of party codes accumulated into `party_count`, in loop
order: one code per non-empty elected line. -/
def parseParties (output : List Char) : List (List Char) :=
  (electedLines output).map extractParty

/-- `party_count[p]` after the loop: the tally entry of party code `p`. -/
def partyCount (output : List Char) (p : List Char) : Nat :=
  (parseParties output).count p

/-- The sum of all counts in the parsed tally. -/
def tallySum (output : List Char) : Nat :=
  ∑ p ∈ (parseParties output).toFinset, partyCount output p

/-- Number of non-empty lines of a string, Python-style
(`s.split("\n")` then truthiness filter). -/
def countNonEmptyLines (s : List Char) : Nat :=
  ((pySplit '\n' [] s).filter (fun l => !l.isEmpty)).length

theorem marker_eq_data : marker = "=== Elected ===\n".data := by decide

/-- Checking border-freeness by a boolean scan over all suffixes. -/
theorem noBorder_of_all (sep : List Char)
    (h : sep.tails.all (fun t => !t.isPrefixOf sep || t.isEmpty || t == sep) = true) :
    noBorder sep := by
  intro t ht hp
  have h2 := List.all_eq_true.mp h t ht
  simp only [Bool.or_eq_true, Bool.not_eq_true', List.isEmpty_iff, beq_iff_eq] at h2
  rcases h2 with (hfalse | hnil) | hsep
  · have hc := List.isPrefixOf_iff_prefix.mpr hp
    rw [hfalse] at hc
    exact absurd hc (by simp)
  · exact Or.inl hnil
  · exact Or.inr hsep

theorem noBorder_marker : noBorder marker :=
  noBorder_of_all marker (by decide)

/-- Summing a list's multiplicities over its distinct elements gives its
length. -/
theorem sum_count_eq_length : ∀ L : List (List Char), ∑ p ∈ L.toFinset, L.count p = L.length := by
  intro L
  induction L with
  | nil => simp
  | cons a L ih =>
    simp only [List.count_cons, beq_iff_eq, List.length_cons, List.toFinset_cons]
    by_cases ha : a ∈ L
    · rw [Finset.insert_eq_self.mpr (List.mem_toFinset.mpr ha)]
      rw [Finset.sum_add_distrib, ih, Finset.sum_ite_eq]
      simp [List.mem_toFinset.mpr ha]
    · rw [Finset.sum_insert (by simp [ha])]
      rw [Finset.sum_add_distrib, ih, Finset.sum_ite_eq]
      have hz : L.count a = 0 := List.count_eq_zero.mpr ha
      simp [ha, hz]
      omega

theorem tallySum_eq_length (output : List Char) :
    tallySum output = (electedLines output).length := by
  unfold tallySum partyCount
  rw [sum_count_eq_length]
  unfold parseParties
  rw [List.length_map]

theorem electedSection_append (a b : List Char) (h : ¬ marker <:+: b) :
    electedSection (a ++ marker ++ b) = b := by
  unfold electedSection
  have hm : marker = '=' :: markerTail := rfl
  rw [hm] at h ⊢
  rw [pySplit_append '=' markerTail noBorder_marker a b]
  rw [pyLast_append _ _ (pySplit_ne_nil '=' markerTail b)]
  rw [pySplit_sep_absent '=' markerTail b h]
  rfl

theorem electedSection_no_marker (s : List Char) (h : ¬ marker <:+: s) :
    electedSection s = s := by
  unfold electedSection
  rw [pySplit_sep_absent '=' markerTail s h]
  rfl

/-- A line with no opening and no closing brace is its own "party code"
under `run.py`'s extraction. -/
theorem extractParty_no_braces (l : List Char) (h1 : lbrace ∉ l) (h2 : rbrace ∉ l) :
    extractParty l = l := by
  unfold extractParty
  rw [pySplit_sep_absent lbrace [] l (fun hc => h1 ((singleton_infix_iff lbrace l).mp hc))]
  show pyHead (pySplit rbrace [] l) = l
  rw [pySplit_sep_absent rbrace [] l (fun hc => h2 ((singleton_infix_iff rbrace l).mp hc))]
  rfl

/-- The extraction returns the substring strictly between the line's last
opening brace and the first closing brace after it. -/
theorem extractParty_last_pair (a mid b : List Char)
    (h1 : lbrace ∉ mid) (h2 : rbrace ∉ mid) (h3 : lbrace ∉ b) :
    extractParty (a ++ lbrace :: (mid ++ rbrace :: b)) = mid := by
  unfold extractParty
  have hshape : a ++ lbrace :: (mid ++ rbrace :: b)
      = a ++ (lbrace :: ([] : List Char)) ++ (mid ++ rbrace :: b) := by simp
  rw [hshape, pySplit_append lbrace [] (noBorder_single lbrace) a (mid ++ rbrace :: b)]
  rw [pyLast_append _ _ (pySplit_ne_nil lbrace [] (mid ++ rbrace :: b))]
  have hne : lbrace ≠ rbrace := by decide
  have hni : ¬ [lbrace] <:+: (mid ++ rbrace :: b) := by
    rw [singleton_infix_iff]
    simp only [List.mem_append, List.mem_cons]
    rintro (hc | hc | hc)
    · exact h1 hc
    · exact hne hc
    · exact h3 hc
  rw [pySplit_sep_absent lbrace [] _ hni]
  show pyHead (pySplit rbrace [] (mid ++ rbrace :: b)) = mid
  have hshape2 : mid ++ rbrace :: b = mid ++ (rbrace :: ([] : List Char)) ++ b := by simp
  rw [hshape2, pySplit_append rbrace [] (noBorder_single rbrace) mid b]
  rw [pyHead_append _ _ (pySplit_ne_nil rbrace [] mid)]
  rw [pySplit_sep_absent rbrace [] mid (fun hc => h2 ((singleton_infix_iff rbrace mid).mp hc))]
  rfl

/-- The spec's parsing example, verbatim: parenthesis delimiters. -/
def exampleParenOut : List Char :=
  "header\n=== Elected ===\nAlice (PartyA)\nBob (PartyB)\nCarol (PartyA)\n".data

/-- The spec's parsing example transposed to the delimiters `run.py`
actually splits on (curly braces). -/
def exampleBraceOut : List Char :=
  "header\n=== Elected ===\nAlice \x7bPartyA\x7d\nBob \x7bPartyB\x7d\nCarol \x7bPartyA\x7d\n".data

/-- C1 (counterexample): the spec's example output uses parenthesis
delimiters, but `run.py` line 66 splits on curly braces only, so the
example does not parse to PartyA ↦ 2, PartyB ↦ 1 (each whole line is taken
as the party code instead). -/
theorem paren_example_not_party_tally :
    ¬ (partyCount exampleParenOut "PartyA".data = 2
       ∧ partyCount exampleParenOut "PartyB".data = 1) := by
  decide

/-- C1 (amended): with curly-brace delimiters the example parses to
PartyA ↦ 2, PartyB ↦ 1 and no other party, and in general the extracted
code is the substring between the last pair of matching curly-brace
delimiters on the line. -/
theorem brace_example_party_tally :
    (partyCount exampleBraceOut "PartyA".data = 2
     ∧ partyCount exampleBraceOut "PartyB".data = 1
     ∧ (parseParties exampleBraceOut).toFinset = {"PartyA".data, "PartyB".data})
    ∧ ∀ a mid b, lbrace ∉ mid → rbrace ∉ mid → lbrace ∉ b →
        extractParty (a ++ lbrace :: (mid ++ rbrace :: b)) = mid :=
  ⟨by decide, extractParty_last_pair⟩

/-- Witness for C1 (amended): the bracket-extraction clause at a concrete
line `Alice \x7bPartyA\x7d`. -/
theorem brace_example_party_tally_w :
    extractParty ("Alice ".data ++ lbrace :: ("PartyA".data ++ rbrace :: [])) = "PartyA".data :=
  brace_example_party_tally.2 "Alice ".data "PartyA".data [] (by decide) (by decide) (by decide)

/-- C2: for a well-formed engine output made of a preamble, exactly one
occurrence of the marker line `=== Elected ===`, and a trailing section
`sec` (the marker occurring in neither part), the parsed tally's counts sum
to exactly the number of non-empty lines of `sec`. -/
theorem parse_counts_sum_to_lines (pre sec : List Char)
    (_hpre : ¬ marker <:+: pre) (hsec : ¬ marker <:+: sec) :
    tallySum (pre ++ marker ++ sec) = countNonEmptyLines sec := by
  rw [tallySum_eq_length]
  unfold electedLines countNonEmptyLines
  rw [electedSection_append pre sec hsec]

/-- Witness for C2 at a concrete output with two elected lines. -/
theorem parse_counts_sum_to_lines_w :
    tallySum ("header\n".data ++ marker ++ "Alice \x7bA\x7d\nBob \x7bB\x7d\n".data) = 2 :=
  (parse_counts_sum_to_lines "header\n".data "Alice \x7bA\x7d\nBob \x7bB\x7d\n".data
    (by decide) (by decide)).trans (by decide)

/-- C3: the parser takes everything after the last occurrence of the marker
as the elected section; an output without the marker is taken whole; and a
marker-less output with no non-empty lines parses to the empty tally (no
error). -/
theorem elected_section_selection :
    (∀ a b, ¬ marker <:+: b → electedSection (a ++ marker ++ b) = b)
    ∧ (∀ s, ¬ marker <:+: s → electedSection s = s)
    ∧ ∀ s, ¬ marker <:+: s →
        (pySplit '\n' [] s).filter (fun l => !l.isEmpty) = [] → parseParties s = [] := by
  refine ⟨electedSection_append, electedSection_no_marker, ?_⟩
  intro s hm hlines
  unfold parseParties electedLines
  rw [electedSection_no_marker s hm, hlines]
  rfl

/-- Witness for C3 at concrete outputs. -/
theorem elected_section_selection_w :
    electedSection ("x\n".data ++ marker ++ "A\n".data) = "A\n".data
    ∧ electedSection "no marker here".data = "no marker here".data
    ∧ parseParties "\n\n".data = [] :=
  ⟨elected_section_selection.1 "x\n".data "A\n".data (by decide),
   elected_section_selection.2.1 "no marker here".data (by decide),
   elected_section_selection.2.2 "\n\n".data (by decide) (by decide)⟩

/-- An elected-candidate line whose extraction yields the empty code. -/
def malformedOut : List Char := "=== Elected ===\nBob \x7b\x7d\n".data

/-- C5 (counterexample): a line with an empty brace pair is not rejected:
the parser accumulates a count of 1 under the empty-string party code (no
`MalformedOutputError` exists anywhere in `run.py`). -/
theorem malformed_line_is_counted :
    parseParties malformedOut = [[]] ∧ partyCount malformedOut [] = 1 := by
  decide

/-- C5 (amended): extraction is total and parsing never fails: each party's
count equals the number of non-empty elected lines whose extracted code is
that party, so a line with an empty or malformed code is silently counted
under whatever code extraction yields. -/
theorem party_count_totality :
    ∀ output p, partyCount output p
      = ((electedLines output).filter (fun l => decide (extractParty l = p))).length := by
  intro output p
  unfold partyCount parseParties
  induction electedLines output with
  | nil => rfl
  | cons x L ih =>
    by_cases h : extractParty x = p
    · simp [List.count_cons, List.filter_cons, h, ih]
    · simp [List.count_cons, List.filter_cons, h, ih]

/-- C10: the parser is total and never rejects a line: counts always sum to
the number of non-empty lines of the elected section; a line with no curly
braces is counted under the entire line text; a line whose last opening
brace is immediately followed by a closing brace is counted under the
empty-string code. -/
theorem parser_totality :
    (∀ output, tallySum output = (electedLines output).length)
    ∧ (∀ l, lbrace ∉ l → rbrace ∉ l → extractParty l = l)
    ∧ ∀ a b, lbrace ∉ b → extractParty (a ++ lbrace :: rbrace :: b) = [] := by
  refine ⟨tallySum_eq_length, extractParty_no_braces, ?_⟩
  intro a b h3
  have h := extractParty_last_pair a [] b (by simp) (by simp) h3
  simpa using h

/-- Witness for C10 at concrete lines. -/
theorem parser_totality_w :
    extractParty "Alice McIntyre".data = "Alice McIntyre".data
    ∧ extractParty ("Bob ".data ++ lbrace :: rbrace :: "\n".data) = [] :=
  ⟨parser_totality.2.1 "Alice McIntyre".data (by decide) (by decide),
   parser_totality.2.2 "Bob ".data "\n".data (by decide)⟩

/-! ## Accumulation and command-line surface (src/run.py lines 31, 38-39, 69-70)

`results = defaultdict(list)`; per run `results[exp_name].append(json_out)`
with `json_out = { "state": state, "results": party_count }`.
`if len(sys.argv) > 1: states = {s: n for (s, n) in states.items() if s in
sys.argv[1:]}`.
-/

/-- A per-run party→seat-count mapping, as stored in `json_out["results"]`. -/
abbrev Tally := List (String × Nat)

/-- One `json_out` record: state identifier and its tally. -/
abbrev StateEntry := String × Tally

/-- The `results` accumulator: experiment name → list of per-state records
(a Python `defaultdict(list)` of dicts, modelled as an association list). -/
abbrev AggMap := List (String × List StateEntry)

/-- Dictionary lookup with a default (`defaultdict` read). -/
def getD : List (String × α) → String → α → α
  | [], _, d => d
  | p :: rest, k, d => if p.1 = k then p.2 else getD rest k d

/-- Dictionary update: replace the value at an existing key in place, else
append the new key at the end (Python dict assignment). -/
def setK : List (String × α) → String → α → List (String × α)
  | [], k, v => [(k, v)]
  | p :: rest, k, v => if p.1 = k then (k, v) :: rest else p :: setK rest k v

/-- `results[exp_name].append(json_out)` on the `defaultdict(list)`. -/
def recordRun (res : AggMap) (exp : String) (entry : StateEntry) : AggMap :=
  setK res exp (getD res exp [] ++ [entry])

theorem getD_setK (res : List (String × α)) (k : String) (v : α) (d : α) :
    getD (setK res k v) k d = v := by
  induction res with
  | nil => simp [setK, getD]
  | cons p rest ih =>
    by_cases h : p.1 = k
    · simp [setK, getD, h]
    · simp [setK, getD, h, ih]

/-- The state filter of `run.py` lines 38-39: with no command-line
arguments all configured states are kept; otherwise only the configured
states whose identifier appears among the arguments. -/
def selectStates (states : List (String × Nat)) (args : List String) : List (String × Nat) :=
  if args = [] then states else states.filter (fun p => decide (p.1 ∈ args))

/-- Modelled from the spec: the claimed command-line contract, which fails
with a `ConfigurationError` (here `none`) when some argument is not a
configured state identifier.  No such check exists in `run.py`; this
definition exists only to exhibit the divergence. -/
def selectStatesSpec (states : List (String × Nat)) (args : List String) :
    Option (List (String × Nat)) :=
  if args.all (fun a => decide (a ∈ states.map Prod.fst)) then
    some (selectStates states args)
  else
    none

/-- A two-state configuration, as in `states.json`. -/
def sampleConfig : List (String × Nat) := [("nsw", 12), ("vic", 12)]

/-- C6 (counterexample): with an unrecognized positional argument the spec
demands a `ConfigurationError`, but the harness silently filters: the run
proceeds with an empty state selection and no error. -/
theorem unknown_state_silently_dropped :
    selectStatesSpec sampleConfig ["bogus"] = none
    ∧ selectStates sampleConfig ["bogus"] = [] := by
  decide

/-- C6 (amended): positional arguments never fail: with no arguments all
configured states are swept; with arguments the sweep keeps exactly the
configured states whose identifier appears among the arguments, silently
ignoring unrecognized arguments. -/
theorem select_states_characterization :
    (∀ sts : List (String × Nat), selectStates sts [] = sts)
    ∧ ∀ (sts : List (String × Nat)) (args : List String) (p : String × Nat),
        p ∈ selectStates sts args ↔ p ∈ sts ∧ (args = [] ∨ p.1 ∈ args) := by
  constructor
  · intro sts
    simp [selectStates]
  · intro sts args p
    by_cases h : args = []
    · subst h
      simp [selectStates]
    · simp [selectStates, h, List.mem_filter]

/-- A one-entry tally used in concrete aggregation examples. -/
def sampleTally : Tally := [("PartyA", 1)]

/-- C7 (counterexample): recording the same (variant, state) pair twice
does not fail and does not leave the accumulator unchanged: the second
call appends a second copy of the record (double-counting).  No
`DuplicateRunError` exists anywhere in `run.py`. -/
theorem duplicate_record_changes_state :
    recordRun (recordRun [] "exp1" ("nsw", sampleTally)) "exp1" ("nsw", sampleTally)
      ≠ recordRun [] "exp1" ("nsw", sampleTally)
    ∧ getD (recordRun (recordRun [] "exp1" ("nsw", sampleTally)) "exp1"
        ("nsw", sampleTally)) "exp1" []
      = [("nsw", sampleTally), ("nsw", sampleTally)] := by
  decide

/-- C7 (amended): every `recordRun` call, duplicate or not, appends the
given record to the experiment's list, so a repeated (variant, state) pair
is recorded twice rather than rejected. -/
theorem record_run_always_appends (res : AggMap) (exp : String) (entry : StateEntry) :
    getD (recordRun res exp entry) exp [] = getD res exp [] ++ [entry] :=
  getD_setK res exp (getD res exp [] ++ [entry]) []

/-! ## Aggregation and normalization (src/vis.py lines 13-32)

For each experiment (in `sorted(results.keys())` order) the script sums the
per-state tallies into `final_senate` (a `defaultdict(int)`), collecting
`all_parties` along the way, then fills every experiment's national tally
with `0` for each party of `all_parties` it is missing.
-/

/-- Lexicographic order on code points, as Python compares strings. -/
def leChars : List Char → List Char → Bool
  | [], _ => true
  | _ :: _, [] => false
  | c :: cs, d :: ds =>
    if c.toNat < d.toNat then true
    else if d.toNat < c.toNat then false
    else leChars cs ds

/-- Insert a string into an ascending list (stable insertion sort step). -/
def insertSorted (a : String) : List String → List String
  | [] => [a]
  | b :: rest => if leChars a.data b.data then a :: b :: rest else b :: insertSorted a rest

/-- Python `sorted(...)` on strings: ascending lexicographic order. -/
def sortKeys (l : List String) : List String :=
  l.foldr insertSorted []

/-- `sorted(results.keys())`. -/
def sortedKeys (res : AggMap) : List String :=
  sortKeys (res.map Prod.fst)

/-- `final_senate[party] += senators` on a `defaultdict(int)`. -/
def incr : Tally → String → Nat → Tally
  | [], k, v => [(k, v)]
  | p :: rest, k, v => if p.1 = k then (k, p.2 + v) :: rest else p :: incr rest k v

/-- All (party, senators) pairs of an experiment's per-state records, in
iteration order. -/
def tallyPairs : List StateEntry → List (String × Nat)
  | [] => []
  | st :: rest => st.2 ++ tallyPairs rest

/-- Folding `incr` over a pair list, starting from an accumulator. -/
def accTally : Tally → List (String × Nat) → Tally
  | d, [] => d
  | d, pv :: rest => accTally (incr d pv.1 pv.2) rest

/-- The `final_senate` dict of one experiment: sum of its states'
tallies. -/
def nationalTally (sts : List StateEntry) : Tally :=
  accTally [] (tallyPairs sts)

/-- The key list of a party→count dict. -/
def keysOf (t : List (String × Nat)) : List String :=
  t.map Prod.fst

/-- The party identifiers observed in one experiment's runs. -/
def expParties (sts : List StateEntry) : List String :=
  keysOf (tallyPairs sts)

/-- Party identifiers observed across the given experiments, in encounter
order (the contents of the Python set `all_parties`). -/
def collectParties (res : AggMap) : List String → List String
  | [] => []
  | e :: rest => expParties (getD res e []) ++ collectParties res rest

/-- `all_parties`: every party observed in any run of the sweep. -/
def allParties (res : AggMap) : List String :=
  collectParties res (sortedKeys res)

/-- The `res` list before zero-filling: one (experiment, national tally)
record per experiment, in sorted key order. -/
def collateKeys (res : AggMap) : List String → List (String × Tally)
  | [] => []
  | e :: rest => (e, nationalTally (getD res e [])) :: collateKeys res rest

/-- The collated per-experiment national tallies. -/
def collate (res : AggMap) : List (String × Tally) :=
  collateKeys res (sortedKeys res)

/-- `exp["results"][party] = 0` for each missing party: append a zero entry
for every party of `all` absent from the tally. -/
def fillOne (all : List String) (t : Tally) : Tally :=
  t ++ (all.filter (fun p => decide (p ∉ keysOf t))).map (fun p => (p, 0))

/-- The aggregation-and-normalization step of `vis.py` lines 13-32:
collate national tallies, then zero-fill each with the global party set. -/
def finalizeVis (res : AggMap) : List (String × Tally) :=
  (collate res).map (fun et => (et.1, fillOne (allParties res).dedup et.2))

/-- All party keys appearing in an already-collated result list. -/
def resParties : List (String × Tally) → List String
  | [] => []
  | et :: rest => keysOf et.2 ++ resParties rest

/-- Re-running only the zero-filling normalization on an already-collated
result list. -/
def fillRes (out : List (String × Tally)) : List (String × Tally) :=
  out.map (fun et => (et.1, fillOne (resParties out).dedup et.2))

/-- The whole step as a state transformer: `vis.py` only reads the loaded
`results`, so the accumulator component is returned unchanged. -/
def finalizeStep (res : AggMap) : AggMap × List (String × Tally) :=
  (res, finalizeVis res)

theorem keysOf_incr (d : Tally) (k : String) (v : Nat) (p : String) :
    p ∈ keysOf (incr d k v) ↔ p = k ∨ p ∈ keysOf d := by
  induction d with
  | nil => simp [incr, keysOf]
  | cons q rest ih =>
    by_cases h : q.1 = k
    · simp [incr, h, keysOf]
    · simp only [incr, if_neg h, keysOf, List.map_cons, List.mem_cons] at ih ⊢
      rw [ih]
      tauto

theorem keysOf_accTally (pairs : List (String × Nat)) :
    ∀ (d : Tally) (p : String),
      p ∈ keysOf (accTally d pairs) ↔ p ∈ keysOf d ∨ p ∈ keysOf pairs := by
  induction pairs with
  | nil => simp [accTally, keysOf]
  | cons pv rest ih =>
    intro d p
    show p ∈ keysOf (accTally (incr d pv.1 pv.2) rest) ↔ _
    rw [ih, keysOf_incr]
    simp [keysOf]
    tauto

theorem keysOf_nationalTally (sts : List StateEntry) (p : String) :
    p ∈ keysOf (nationalTally sts) ↔ p ∈ expParties sts := by
  unfold nationalTally expParties
  rw [keysOf_accTally]
  simp [keysOf]

theorem mem_collectParties (res : AggMap) :
    ∀ (ks : List String) (p : String),
      p ∈ collectParties res ks ↔ ∃ e ∈ ks, p ∈ expParties (getD res e []) := by
  intro ks
  induction ks with
  | nil => simp [collectParties]
  | cons e rest ih =>
    intro p
    show p ∈ expParties (getD res e []) ++ collectParties res rest ↔ _
    rw [List.mem_append, ih]
    constructor
    · rintro (h | ⟨x, hx, h⟩)
      · exact ⟨e, List.mem_cons_self e rest, h⟩
      · exact ⟨x, List.mem_cons_of_mem e hx, h⟩
    · rintro ⟨x, hx, h⟩
      rcases List.mem_cons.mp hx with rfl | hx
      · exact Or.inl h
      · exact Or.inr ⟨x, hx, h⟩

theorem mem_collateKeys (res : AggMap) :
    ∀ (ks : List String) (e : String) (t : Tally),
      (e, t) ∈ collateKeys res ks ↔ e ∈ ks ∧ t = nationalTally (getD res e []) := by
  intro ks
  induction ks with
  | nil => simp [collateKeys]
  | cons x rest ih =>
    intro e t
    show (e, t) ∈ (x, nationalTally (getD res x [])) :: collateKeys res rest ↔ _
    rw [List.mem_cons, ih]
    constructor
    · rintro (heq | ⟨hm, ht⟩)
      · cases heq
        exact ⟨List.mem_cons_self _ _, rfl⟩
      · exact ⟨List.mem_cons_of_mem x hm, ht⟩
    · rintro ⟨hm, rfl⟩
      rcases List.mem_cons.mp hm with rfl | hm
      · exact Or.inl rfl
      · exact Or.inr ⟨hm, rfl⟩

theorem keys_collate_subset (res : AggMap) (e : String) (t : Tally)
    (h : (e, t) ∈ collate res) (p : String) (hp : p ∈ keysOf t) :
    p ∈ allParties res := by
  obtain ⟨he, rfl⟩ := (mem_collateKeys res (sortedKeys res) e t).mp h
  rw [keysOf_nationalTally] at hp
  exact (mem_collectParties res (sortedKeys res) p).mpr ⟨e, he, hp⟩

theorem mem_keys_fillOne (all : List String) (t : Tally) (p : String) :
    p ∈ keysOf (fillOne all t) ↔ p ∈ keysOf t ∨ p ∈ all := by
  simp only [fillOne, keysOf, List.map_append, List.mem_append, List.map_map]
  constructor
  · rintro (h | h)
    · exact Or.inl h
    · right
      simp only [List.mem_map, Function.comp] at h
      obtain ⟨q, hq, hqp⟩ := h
      have hq2 := (List.mem_filter.mp hq).1
      exact (show q = p from hqp) ▸ hq2
  · rintro (h | h)
    · exact Or.inl h
    · by_cases hk : p ∈ t.map Prod.fst
      · exact Or.inl hk
      · right
        simp only [List.mem_map, Function.comp]
        refine ⟨p, List.mem_filter.mpr ⟨h, ?_⟩, rfl⟩
        simpa [keysOf] using hk

theorem getD_append_right (t u : List (String × α)) (k : String) (d : α)
    (h : k ∉ t.map Prod.fst) :
    getD (t ++ u) k d = getD u k d := by
  induction t with
  | nil => rfl
  | cons q rest ih =>
    simp only [List.map_cons, List.mem_cons] at h
    push_neg at h
    show getD (q :: (rest ++ u)) k d = getD u k d
    rw [getD, if_neg (fun hc => h.1 hc.symm)]
    exact ih h.2

theorem getD_map_zero (l : List String) (k : String) (d : Nat) (h : k ∈ l) :
    getD (l.map (fun q => (q, (0 : Nat)))) k d = 0 := by
  induction l with
  | nil => cases h
  | cons x rest ih =>
    by_cases hx : x = k
    · simp [getD, hx]
    · rcases List.mem_cons.mp h with heq | hm
      · exact absurd heq.symm hx
      · simp only [List.map_cons, getD]
        rw [if_neg hx]
        exact ih hm

theorem getD_fillOne_zero (all : List String) (t : Tally) (p : String) (d : Nat)
    (hnk : p ∉ keysOf t) (hall : p ∈ all) :
    getD (fillOne all t) p d = 0 := by
  unfold fillOne
  rw [getD_append_right _ _ _ _ hnk]
  refine getD_map_zero _ _ _ (List.mem_filter.mpr ⟨hall, ?_⟩)
  simpa using hnk

/-- After zero-filling against the (deduplicated) global party list, a
collated tally's key set is exactly the global party set. -/
theorem keys_fill_collate (res : AggMap) (e : String) (t : Tally)
    (h : (e, t) ∈ collate res) (p : String) :
    p ∈ keysOf (fillOne (allParties res).dedup t) ↔ p ∈ allParties res := by
  rw [mem_keys_fillOne, List.mem_dedup]
  constructor
  · rintro (hk | hk)
    · exact keys_collate_subset res e t h p hk
    · exact hk
  · exact Or.inr

/-- C4: after normalization every experiment's national tally has the same
key set — exactly the party identifiers observed anywhere in the sweep —
and a party absent from an experiment's runs is present with count 0. -/
theorem normalization_invariant (res : AggMap) :
    (∀ et1 et2, et1 ∈ finalizeVis res → et2 ∈ finalizeVis res →
      (keysOf et1.2).toFinset = (keysOf et2.2).toFinset)
    ∧ ∀ e t, (e, t) ∈ collate res →
        ((keysOf (fillOne (allParties res).dedup t)).toFinset = (allParties res).toFinset
         ∧ ∀ p, p ∈ allParties res → p ∉ keysOf t →
             getD (fillOne (allParties res).dedup t) p 1 = 0) := by
  have hkeys : ∀ e t, (e, t) ∈ collate res →
      (keysOf (fillOne (allParties res).dedup t)).toFinset = (allParties res).toFinset := by
    intro e t h
    apply Finset.ext
    intro p
    rw [List.mem_toFinset, List.mem_toFinset]
    exact keys_fill_collate res e t h p
  constructor
  · intro et1 et2 h1 h2
    obtain ⟨⟨e1, t1⟩, hb1, rfl⟩ := List.mem_map.mp h1
    obtain ⟨⟨e2, t2⟩, hb2, rfl⟩ := List.mem_map.mp h2
    simp only
    rw [hkeys e1 t1 hb1, hkeys e2 t2 hb2]
  · intro e t h
    exact ⟨hkeys e t h,
      fun p hp hnk => getD_fillOne_zero _ _ _ _ hnk (List.mem_dedup.mpr hp)⟩

/-- A two-experiment accumulator: PartyA elected in exp1/nsw, PartyB in
exp2/vic. -/
def sampleAgg : AggMap :=
  [("exp1", [("nsw", [("PartyA", 1)])]), ("exp2", [("vic", [("PartyB", 2)])])]

/-- Witness for C4: in the sample sweep, exp1's normalized national tally
contains PartyB (observed only in exp2) with count 0. -/
theorem normalization_invariant_w :
    getD (fillOne (allParties sampleAgg).dedup
      (nationalTally (getD sampleAgg "exp1" []))) "PartyB" 1 = 0 :=
  (((normalization_invariant sampleAgg).2 "exp1"
      (nationalTally (getD sampleAgg "exp1" [])) (by decide)).2 "PartyB"
    (by decide) (by decide))

theorem map_id_of (l : List α) (f : α → α) (h : ∀ x ∈ l, f x = x) : l.map f = l := by
  induction l with
  | nil => rfl
  | cons x rest ih =>
    rw [List.map_cons, h x (List.mem_cons_self x rest),
      ih (fun y hy => h y (List.mem_cons_of_mem x hy))]

theorem mem_resParties :
    ∀ (out : List (String × Tally)) (p : String),
      p ∈ resParties out ↔ ∃ et ∈ out, p ∈ keysOf et.2 := by
  intro out
  induction out with
  | nil => simp [resParties]
  | cons et rest ih =>
    intro p
    show p ∈ keysOf et.2 ++ resParties rest ↔ _
    rw [List.mem_append, ih]
    constructor
    · rintro (h | ⟨x, hx, h⟩)
      · exact ⟨et, List.mem_cons_self et rest, h⟩
      · exact ⟨x, List.mem_cons_of_mem et hx, h⟩
    · rintro ⟨x, hx, h⟩
      rcases List.mem_cons.mp hx with rfl | hx
      · exact Or.inl h
      · exact Or.inr ⟨x, hx, h⟩

/-- Every normalized entry's key set is the global party set. -/
theorem keys_mem_finalizeVis (res : AggMap) (et : String × Tally)
    (h : et ∈ finalizeVis res) (p : String) :
    p ∈ keysOf et.2 ↔ p ∈ allParties res := by
  obtain ⟨⟨e, t⟩, hb, rfl⟩ := List.mem_map.mp h
  simpa using keys_fill_collate res e t hb p

/-- Zero-filling against a party list already contained in the tally's keys
changes nothing. -/
theorem fillOne_of_subset (all : List String) (t : Tally)
    (h : ∀ p ∈ all, p ∈ keysOf t) :
    fillOne all t = t := by
  unfold fillOne
  have hnil : all.filter (fun p => decide (p ∉ keysOf t)) = [] := by
    rw [List.filter_eq_nil_iff]
    intro p hp
    simp [h p hp]
  rw [hnil]
  simp

/-- C8: the aggregation-and-normalization step is idempotent: the step does
not mutate the accumulator, so running it again yields identical output;
moreover re-running the zero-filling normalization on the already
normalized result list is the identity. -/
theorem finalize_idempotent :
    (∀ res : AggMap, (finalizeStep (finalizeStep res).1).2 = (finalizeStep res).2)
    ∧ ∀ res : AggMap, fillRes (finalizeVis res) = finalizeVis res := by
  constructor
  · intro res
    rfl
  · intro res
    unfold fillRes
    apply map_id_of
    intro et het
    have hfill : fillOne (resParties (finalizeVis res)).dedup et.2 = et.2 := by
      apply fillOne_of_subset
      intro p hp
      rw [List.mem_dedup] at hp
      obtain ⟨et', het', hp'⟩ := (mem_resParties (finalizeVis res) p).mp hp
      exact (keys_mem_finalizeVis res et het p).mpr
        ((keys_mem_finalizeVis res et' het' p).mp hp')
    rw [hfill]

/-! ## Results store (src/run.py lines 74-75, src/vis.py lines 8-9)

`json.dump(results, ok)` and `results = json.load(f)`. -/

/-- Modelled from the spec: the structured on-disk document of the
ResultsStore (§4.5, §6): a mapping from experiment-variant name to an
ordered list of records each carrying a state identifier and a
party→count mapping.  `run.py` line 75 delegates serialization to Python's
`json.dump` and `vis.py` line 9 to `json.load`, whose implementations are
outside `src/`; the document tree they exchange is modelled by this
inductive. -/
inductive J where
  | str : String → J
  | num : Nat → J
  | arr : List J → J
  | obj : List (String × J) → J

/-- Modelled from the spec: serialize one party→count mapping. -/
def saveTally (t : Tally) : List (String × J) :=
  t.map (fun pc => (pc.1, J.num pc.2))

/-- Modelled from the spec: serialize one `json_out` record. -/
def saveState (st : StateEntry) : J :=
  J.obj [("state", J.str st.1), ("results", J.obj (saveTally st.2))]

/-- Modelled from the spec: serialize an experiment's record list. -/
def saveStates (sts : List StateEntry) : List J :=
  sts.map saveState

/-- Modelled from the spec: `save` writes the whole aggregated result set
as one document. -/
def save (x : AggMap) : J :=
  J.obj (x.map (fun es => (es.1, J.arr (saveStates es.2))))

/-- Modelled from the spec: decode one party→count mapping. -/
def loadTally : List (String × J) → Option Tally
  | [] => some []
  | (p, J.num n) :: rest => (loadTally rest).map (fun t => (p, n) :: t)
  | _ => none

/-- Modelled from the spec: decode one per-state record. -/
def loadState : J → Option StateEntry
  | J.obj [("state", J.str s), ("results", J.obj l)] =>
    (loadTally l).map (fun t => (s, t))
  | _ => none

/-- Modelled from the spec: decode an experiment's record list. -/
def loadStates : List J → Option (List StateEntry)
  | [] => some []
  | j :: rest =>
    match loadState j, loadStates rest with
    | some st, some sts => some (st :: sts)
    | _, _ => none

/-- Modelled from the spec: decode the top-level variant mapping. -/
def loadTop : List (String × J) → Option AggMap
  | [] => some []
  | (e, J.arr l) :: rest =>
    match loadStates l, loadTop rest with
    | some sts, some m => some ((e, sts) :: m)
    | _, _ => none
  | _ => none

/-- Modelled from the spec: `load` is the inverse reader of `save`. -/
def load : J → Option AggMap
  | J.obj l => loadTop l
  | _ => none

theorem loadTally_saveTally (t : Tally) : loadTally (saveTally t) = some t := by
  induction t with
  | nil => rfl
  | cons pc rest ih =>
    show loadTally ((pc.1, J.num pc.2) :: saveTally rest) = _
    simp [loadTally, ih]

theorem loadState_saveState (st : StateEntry) : loadState (saveState st) = some st := by
  show loadState (J.obj [("state", J.str st.1), ("results", J.obj (saveTally st.2))]) = _
  simp [loadState, loadTally_saveTally]

theorem loadStates_saveStates (sts : List StateEntry) :
    loadStates (saveStates sts) = some sts := by
  induction sts with
  | nil => rfl
  | cons st rest ih =>
    show loadStates (saveState st :: saveStates rest) = _
    simp [loadStates, loadState_saveState, ih]

/-- C9: round-trip law of the results store: for every aggregated result
set `x`, `load (save x)` succeeds and returns `x` itself (exact equality,
which subsumes key-order-insensitive equality). -/
theorem store_round_trip : ∀ x : AggMap, load (save x) = some x := by
  intro x
  show loadTop (x.map (fun es => (es.1, J.arr (saveStates es.2)))) = some x
  induction x with
  | nil => rfl
  | cons es rest ih =>
    rw [List.map_cons]
    show loadTop ((es.1, J.arr (saveStates es.2)) :: _) = _
    simp [loadTop, loadStates_saveStates, ih]
